import Mathlib

/-
Verification of the axnmihn native numeric core (decay.cpp, vector_ops.cpp,
graph_ops.cpp) against its natural-language specification.  Doubles are
modelled as real numbers (exact arithmetic); machine integers as ℤ/ℕ.
-/

noncomputable section

/-- Input record for the decay calculation (decay.cpp; the struct as used by
the implementation and the bindings, including `channel_mentions`). -/
structure DecayInput where
  importance : ℝ
  hours_passed : ℝ
  access_count : ℤ
  connection_count : ℤ
  last_access_hours : ℝ
  memory_type : ℤ
  channel_mentions : ℤ

/-- Tunable decay parameters (decay.cpp DecayConfig, including
`channel_diversity_k`). -/
structure DecayConfig where
  base_decay_rate : ℝ
  min_retention : ℝ
  access_stability_k : ℝ
  relation_resistance_k : ℝ
  channel_diversity_k : ℝ
  type_multipliers : Fin 4 → ℝ

/-- decay.cpp `fast_exp_neg`: both branches call std::exp(-x). -/
def fast_exp_neg (x : ℝ) : ℝ :=
  if x < 0.01 then Real.exp (-x) else Real.exp (-x)

/-- decay.cpp `fast_log1p`: Taylor expansion below 0.1, std::log1p above. -/
def fast_log1p (x : ℝ) : ℝ :=
  if x < 0.1 then x - 0.5 * (x * x) + (1/3) * (x * x * x)
  else Real.log (1 + x)

/-- decay.cpp line 51: stability = 1 + K * log1p(access_count). -/
def stability (input : DecayInput) (config : DecayConfig) : ℝ :=
  1 + config.access_stability_k * fast_log1p (input.access_count : ℝ)

/-- decay.cpp line 55: resistance = min(1.0, connection_count * K). -/
def resistance (input : DecayInput) (config : DecayConfig) : ℝ :=
  min 1 ((input.connection_count : ℝ) * config.relation_resistance_k)

/-- std::clamp(memory_type, 0, 3) as an index into the multiplier table. -/
def clampType (mt : ℤ) : Fin 4 :=
  ⟨(max 0 (min mt 3)).toNat, by omega⟩

/-- decay.cpp lines 58-59: type multiplier looked up at the clamped index. -/
def type_multiplier (input : DecayInput) (config : DecayConfig) : ℝ :=
  config.type_multipliers (clampType input.memory_type)

/-- decay.cpp line 62: channel diversity boost. -/
def channel_boost (input : DecayInput) (config : DecayConfig) : ℝ :=
  1 / (1 + config.channel_diversity_k * (input.channel_mentions : ℝ))

/-- decay.cpp line 65: effective decay rate. -/
def effective_rate (input : DecayInput) (config : DecayConfig) : ℝ :=
  config.base_decay_rate * type_multiplier input config * channel_boost input config
    / stability input config * (1 - resistance input config)

/-- decay.cpp `calculate` (lines 44-78). -/
def calculate (input : DecayInput) (config : DecayConfig) : ℝ :=
  if input.hours_passed < 0 then input.importance
  else
    let decayed := input.importance *
      fast_exp_neg (effective_rate input config * input.hours_passed)
    let boosted := if 0 ≤ input.last_access_hours ∧ 168 < input.hours_passed ∧
        input.last_access_hours < 24 then decayed * 1.3 else decayed
    max boosted (input.importance * config.min_retention)

/-- The default configuration of decay.cpp (defaults of the DecayConfig
fields, with channel_diversity_k set to 0.1 as a concrete sample value). -/
def cfgA : DecayConfig :=
  ⟨0.002, 0.1, 0.3, 0.1, 0.1, ![1, 0.3, 0.5, 0.7]⟩

/-- decay.cpp `calculate_batch` (lines 80-97): chunks of 64, each entry
scored with the scalar `calculate`. -/
def calculate_batch : List DecayInput → DecayConfig → List ℝ
  | [], _ => []
  | x :: rest, config =>
    ((x :: rest).take 64).map (fun y => calculate y config) ++
      calculate_batch ((x :: rest).drop 64) config
termination_by inputs _ => inputs.length
decreasing_by
  simp only [List.length_drop, List.length_cons]
  omega

/-- The record assembled from the k-th entry of each parallel input array
(including channel_mentions, decay.cpp lines 212-220). -/
def assembleInput (imp hp : ℕ → ℝ) (ac cc : ℕ → ℤ) (lah : ℕ → ℝ)
    (mt cm : ℕ → ℤ) (k : ℕ) : DecayInput :=
  ⟨imp k, hp k, ac k, cc k, lah k, mt k, cm k⟩

/-- One SIMD lane of the AVX2 body of `calculate_batch_arrays`
(decay.cpp lines 126-208) in exact arithmetic.  Note: unlike `calculate`,
the lane has no `hours_passed < 0` early return. -/
def avx2Lane (imp hp : ℝ) (ac cc : ℤ) (lah : ℝ) (mt cm : ℤ)
    (config : DecayConfig) : ℝ :=
  let stab := 1 + config.access_stability_k * fast_log1p (ac : ℝ)
  let res := min ((cc : ℝ) * config.relation_resistance_k) 1
  let tm := config.type_multipliers (clampType mt)
  let cb := 1 / (1 + config.channel_diversity_k * (cm : ℝ))
  let eff := config.base_decay_rate * tm * cb / stab * (1 - res)
  let decayed := imp * fast_exp_neg (eff * hp)
  let boosted := if 0 ≤ lah ∧ 168 < hp ∧ lah < 24 then decayed * 1.3 else decayed
  max boosted (imp * config.min_retention)

/-- decay.cpp `calculate_batch_arrays`, AVX2 variant: the first 4·⌊n/4⌋
entries go through the SIMD lanes, the tail through scalar `calculate`
on the fully assembled record. -/
def calculate_batch_arrays_avx2 (n : ℕ) (imp hp : ℕ → ℝ) (ac cc : ℕ → ℤ)
    (lah : ℕ → ℝ) (mt cm : ℕ → ℤ) (config : DecayConfig) : List ℝ :=
  (List.range n).map fun i =>
    if i < 4 * (n / 4) then
      avx2Lane (imp i) (hp i) (ac i) (cc i) (lah i) (mt i) (cm i) config
    else calculate (assembleInput imp hp ac cc lah mt cm i) config

/-- decay.cpp `calculate_batch_arrays`, scalar fallback variant
(lines 224-237): the DecayInput is aggregate-initialized WITHOUT
channel_mentions, which is therefore value-initialized to 0. -/
def calculate_batch_arrays_fallback (n : ℕ) (imp hp : ℕ → ℝ) (ac cc : ℕ → ℤ)
    (lah : ℕ → ℝ) (mt cm : ℕ → ℤ) (config : DecayConfig) : List ℝ :=
  (List.range n).map fun i =>
    calculate ⟨imp i, hp i, ac i, cc i, lah i, mt i, 0⟩ config

/-
Vector similarity engine (vector_ops.cpp).  Vectors are lists of reals, the
row-major corpus/embedding matrix is a flat function ℕ → ℝ.  In exact real
arithmetic the AVX2 accumulation (four lanes plus horizontal sum plus tail)
and the scalar loop compute the same sums, so both compile-time variants
share one embedding.
-/

/-- Accumulated dot product of the common prefix of two lists
(vector_ops.cpp loop `dot += a[i] * b[i]`). -/
def dotL (a b : List ℝ) : ℝ :=
  (List.zipWith (fun x y => x * y) a b).sum

/-- Accumulated sum of squares (the `norm_a`, `norm_b`, `norm_sq` loops). -/
def sumSq (a : List ℝ) : ℝ := dotL a a

/-- Row `v` of a row-major matrix with `dim` columns, as a list. -/
def rowList (corpus : ℕ → ℝ) (dim v : ℕ) : List ℝ :=
  (List.range dim).map fun d => corpus (v * dim + d)

/-- Euclidean norm of row `v` (the precomputed `norms[i]`). -/
def rowNorm (corpus : ℕ → ℝ) (dim v : ℕ) : ℝ :=
  Real.sqrt (sumSq (rowList corpus dim v))

/-- vector_ops.cpp `cosine_similarity` (lines 12-66). -/
def cosine_similarity (a b : List ℝ) : ℝ :=
  if a.length ≠ b.length ∨ a = [] then 0
  else
    let denom := Real.sqrt (sumSq a) * Real.sqrt (sumSq b)
    if denom < 1e-10 then 0 else dotL a b / denom

/-- vector_ops.cpp `cosine_similarity_batch` (lines 68-137). -/
def cosine_similarity_batch (query : List ℝ) (corpus : ℕ → ℝ)
    (n_vectors dim : ℕ) : List ℝ :=
  if query.length ≠ dim then List.replicate n_vectors 0
  else if Real.sqrt (sumSq query) < 1e-10 then List.replicate n_vectors 0
  else (List.range n_vectors).map fun v =>
    if rowNorm corpus dim v < 1e-10 then 0
    else dotL query (rowList corpus dim v) /
      (Real.sqrt (sumSq query) * rowNorm corpus dim v)

/-- The similarity value computed for a pair inside
`find_duplicates_by_embedding` (dot / (norms[i] * norms[j])). -/
def pairSim (corpus : ℕ → ℝ) (dim i j : ℕ) : ℝ :=
  dotL (rowList corpus dim i) (rowList corpus dim j) /
    (rowNorm corpus dim i * rowNorm corpus dim j)

/-- vector_ops.cpp `find_duplicates_by_embedding` (lines 139-202):
outer loop over i, inner loop over j = i+1 .. n-1, skipping small norms,
emitting (i, j, similarity) when similarity ≥ threshold. -/
def find_duplicates_by_embedding (corpus : ℕ → ℝ) (n dim : ℕ)
    (threshold : ℝ) : List (ℕ × ℕ × ℝ) :=
  (List.range n).flatMap fun i =>
    if rowNorm corpus dim i < 1e-10 then []
    else (List.range' (i + 1) (n - (i + 1))).filterMap fun j =>
      if rowNorm corpus dim j < 1e-10 then none
      else if threshold ≤ pairSim corpus dim i j then
        some (i, j, pairSim corpus dim i j)
      else none


end

/-
Graph reachability module (graph_ops.cpp).  Node ids are ℕ; the adjacency
unordered_map is an association list; the visited unordered_set is a Finset.
-/

/-- All nodes that occur in some neighbor list of the adjacency map;
every node ever pushed by the BFS loop lies in this finite set. -/
def adjUniverse (adj : List (ℕ × List ℕ)) : Finset ℕ :=
  (adj.flatMap fun p => p.2).toFinset

/-- One neighbor step of graph_ops.cpp lines 36-41: insert the neighbor
into visited and push it at depth d+1 unless already visited. -/
def pushStep (d : ℤ) (st : Finset ℕ × List (ℕ × ℤ)) (nb : ℕ) :
    Finset ℕ × List (ℕ × ℤ) :=
  if nb ∈ st.1 then st else (insert nb st.1, st.2 ++ [(nb, d + 1)])

/-- The inner neighbor loop over one adjacency entry. -/
def pushNbrs (d : ℤ) (nbrs : List ℕ) (st : Finset ℕ × List (ℕ × ℤ)) :
    Finset ℕ × List (ℕ × ℤ) :=
  nbrs.foldl (pushStep d) st

/-- The BFS worklist loop of graph_ops.cpp `bfs_neighbors` (lines 23-42):
pop (current, depth); skip if depth ≥ max_depth or current has no adjacency
entry; otherwise insert-and-push the unvisited neighbors at depth+1. -/
def bfsLoop (adj : List (ℕ × List ℕ)) (maxDepth : ℤ) :
    Finset ℕ → List (ℕ × ℤ) → Finset ℕ
  | visited, [] => visited
  | visited, (c, d) :: rest =>
    if maxDepth ≤ d then bfsLoop adj maxDepth visited rest
    else
      match hL : adj.lookup c with
      | none => bfsLoop adj maxDepth visited rest
      | some nbrs =>
        bfsLoop adj maxDepth (pushNbrs d nbrs (visited, rest)).1
          (pushNbrs d nbrs (visited, rest)).2
termination_by visited queue => (adjUniverse adj \ visited).card + queue.length
decreasing_by
· simp only [List.length_cons]
  omega
· simp only [List.length_cons]
  omega
· simp only [List.length_cons]
  have hmem : (c, nbrs) ∈ adj := by
    clear * - hL
    induction adj with
    | nil => simp [List.lookup] at hL
    | cons hd tl ih =>
      obtain ⟨k, vs⟩ := hd
      rw [List.lookup] at hL
      by_cases hk : c = k
      · subst hk
        simp only [beq_self_eq_true] at hL
        injection hL with hL
        subst hL
        exact List.mem_cons_self _ _
      · rw [show (c == k) = false by rw [beq_eq_false_iff_ne]; exact hk] at hL
        exact List.mem_cons_of_mem _ (ih hL)
  have hsub : ∀ x ∈ nbrs, x ∈ adjUniverse adj := by
    intro x hx
    unfold adjUniverse
    rw [List.mem_toFinset, List.mem_flatMap]
    exact ⟨(c, nbrs), hmem, hx⟩
  have key : ∀ (l : List ℕ), (∀ x ∈ l, x ∈ adjUniverse adj) →
      ∀ (v : Finset ℕ) (p : List (ℕ × ℤ)),
      (adjUniverse adj \ (List.foldl (pushStep d) (v, p) l).1).card +
        (List.foldl (pushStep d) (v, p) l).2.length ≤
      (adjUniverse adj \ v).card + p.length := by
    intro l
    induction l with
    | nil =>
      intro _ v p
      simp
    | cons x xs ih =>
      intro hsub' v p
      rw [List.foldl_cons]
      by_cases hx : x ∈ v
      · rw [show pushStep d (v, p) x = (v, p) from by
          unfold pushStep
          rw [if_pos hx]]
        exact ih (fun y hy => hsub' y (List.mem_cons_of_mem _ hy)) v p
      · rw [show pushStep d (v, p) x = (insert x v, p ++ [(x, d + 1)]) from by
          unfold pushStep
          rw [if_neg hx]]
        refine le_trans (ih (fun y hy => hsub' y (List.mem_cons_of_mem _ hy))
          (insert x v) (p ++ [(x, d + 1)])) ?_
        have hxU : x ∈ adjUniverse adj \ v :=
          Finset.mem_sdiff.mpr ⟨hsub' x (List.mem_cons_self _ _), hx⟩
        have hins : adjUniverse adj \ insert x v = (adjUniverse adj \ v).erase x :=
          Finset.sdiff_insert _ _ _
        have hcard : ((adjUniverse adj \ v).erase x).card =
            (adjUniverse adj \ v).card - 1 :=
          Finset.card_erase_of_mem hxU
        have hpos : 0 < (adjUniverse adj \ v).card :=
          Finset.card_pos.mpr ⟨x, hxU⟩
        rw [hins, hcard, List.length_append]
        simp only [List.length_cons, List.length_nil]
        omega
  have := key nbrs hsub visited rest
  unfold pushNbrs
  omega

/-- Initialization (graph_ops.cpp lines 16-21): distinct start nodes are
inserted into visited and pushed at depth 0, in order. -/
def bfsInit (start : List ℕ) : Finset ℕ × List (ℕ × ℤ) :=
  start.foldl (fun st node =>
    if node ∈ st.1 then st else (insert node st.1, st.2 ++ [(node, 0)])) (∅, [])

/-- graph_ops.cpp `bfs_neighbors` (lines 7-45). -/
def bfs_neighbors (adj : List (ℕ × List ℕ)) (start : List ℕ)
    (maxDepth : ℤ) : Finset ℕ :=
  bfsLoop adj maxDepth (bfsInit start).1 (bfsInit start).2

/-- `fast_exp_neg` agrees with exp(-x) everywhere. -/
theorem fast_exp_neg_eq (x : ℝ) : fast_exp_neg x = Real.exp (-x) := by
  unfold fast_exp_neg; split <;> rfl

/-- `fast_log1p` is non-negative on casts of non-negative integers. -/
theorem fast_log1p_intCast_nonneg (z : ℤ) (hz : 0 ≤ z) :
    0 ≤ fast_log1p (z : ℝ) := by
  unfold fast_log1p
  split
  · rename_i h
    have hz0 : z = 0 := by
      by_contra hne
      have h1 : (1 : ℤ) ≤ z := by omega
      have : (1 : ℝ) ≤ (z : ℝ) := by exact_mod_cast h1
      nlinarith
    subst hz0
    norm_num
  · apply Real.log_nonneg
    have : (0 : ℝ) ≤ (z : ℝ) := by exact_mod_cast hz
    linarith

/-- Claim C5: for every DecayInput with hours_passed < 0 and every DecayConfig,
`calculate` returns exactly the input's importance, independent of every other
input field and of every configuration parameter. -/
theorem calculate_negative_hours_identity (input : DecayInput) (config : DecayConfig)
    (h : input.hours_passed < 0) :
    calculate input config = input.importance := by
  unfold calculate
  rw [if_pos h]

theorem calculate_negative_hours_identity_witness :
    calculate ⟨0.7, -1, 5, 2, 3, 1, 4⟩ cfgA = 0.7 :=
  calculate_negative_hours_identity ⟨0.7, -1, 5, 2, 3, 1, 4⟩ cfgA (by norm_num)

/-- Claim C6: retention floor — with importance ≥ 0 and min_retention in [0,1],
the decayed score never falls below importance * min_retention. -/
theorem calculate_retention_floor (input : DecayInput) (config : DecayConfig)
    (himp : 0 ≤ input.importance) (hmr0 : 0 ≤ config.min_retention)
    (hmr1 : config.min_retention ≤ 1) :
    input.importance * config.min_retention ≤ calculate input config := by
  unfold calculate
  split
  · calc input.importance * config.min_retention
        ≤ input.importance * 1 := by
          exact mul_le_mul_of_nonneg_left hmr1 himp
      _ = input.importance := mul_one _
  · exact le_max_right _ _

theorem calculate_retention_floor_witness :
    (⟨1, 5, 0, 0, -1, 0, 0⟩ : DecayInput).importance * cfgA.min_retention ≤
      calculate ⟨1, 5, 0, 0, -1, 0, 0⟩ cfgA :=
  calculate_retention_floor ⟨1, 5, 0, 0, -1, 0, 0⟩ cfgA (by norm_num)
    (by norm_num [cfgA]) (by norm_num [cfgA])

/-- Positivity of the stability factor for non-negative data. -/
theorem stability_pos (input : DecayInput) (config : DecayConfig)
    (hac : 0 ≤ input.access_count) (hak : 0 ≤ config.access_stability_k) :
    0 < stability input config := by
  unfold stability
  have := fast_log1p_intCast_nonneg input.access_count hac
  nlinarith

/-- Non-negativity of the channel diversity boost for non-negative data. -/
theorem channel_boost_nonneg (input : DecayInput) (config : DecayConfig)
    (hcm : 0 ≤ input.channel_mentions) (hck : 0 ≤ config.channel_diversity_k) :
    0 ≤ channel_boost input config := by
  unfold channel_boost
  have hcm' : (0 : ℝ) ≤ (input.channel_mentions : ℝ) := by exact_mod_cast hcm
  positivity

/-- Resistance bounds for non-negative data. -/
theorem resistance_bounds (input : DecayInput) (config : DecayConfig)
    (hcc : 0 ≤ input.connection_count) (hrk : 0 ≤ config.relation_resistance_k) :
    0 ≤ resistance input config ∧ resistance input config ≤ 1 := by
  unfold resistance
  constructor
  · apply le_min (by norm_num)
    have : (0 : ℝ) ≤ (input.connection_count : ℝ) := by exact_mod_cast hcc
    exact mul_nonneg this hrk
  · exact min_le_left _ _

/-- Non-negativity of the effective decay rate for non-negative data. -/
theorem effective_rate_nonneg_aux (input : DecayInput) (config : DecayConfig)
    (hac : 0 ≤ input.access_count) (hcc : 0 ≤ input.connection_count)
    (hcm : 0 ≤ input.channel_mentions) (hb : 0 ≤ config.base_decay_rate)
    (hak : 0 ≤ config.access_stability_k) (hrk : 0 ≤ config.relation_resistance_k)
    (hck : 0 ≤ config.channel_diversity_k)
    (htm : ∀ i, 0 ≤ config.type_multipliers i) :
    0 ≤ effective_rate input config := by
  unfold effective_rate
  have h1 := stability_pos input config hac hak
  have h2 := channel_boost_nonneg input config hcm hck
  have h3 := (resistance_bounds input config hcc hrk).2
  have h4 : 0 ≤ type_multiplier input config := htm _
  apply mul_nonneg
  · exact div_nonneg (mul_nonneg (mul_nonneg hb h4) h2) h1.le
  · linarith

/-- Claim C9 (amended): for non-negative input counters and non-negative
configuration parameters, the resistance lies in [0,1] and the effective
decay rate is non-negative. -/
theorem resistance_effective_rate_nonneg (input : DecayInput) (config : DecayConfig)
    (hac : 0 ≤ input.access_count) (hcc : 0 ≤ input.connection_count)
    (hcm : 0 ≤ input.channel_mentions) (hb : 0 ≤ config.base_decay_rate)
    (hak : 0 ≤ config.access_stability_k) (hrk : 0 ≤ config.relation_resistance_k)
    (hck : 0 ≤ config.channel_diversity_k)
    (htm : ∀ i, 0 ≤ config.type_multipliers i) :
    0 ≤ resistance input config ∧ resistance input config ≤ 1 ∧
      0 ≤ effective_rate input config :=
  ⟨(resistance_bounds input config hcc hrk).1,
   (resistance_bounds input config hcc hrk).2,
   effective_rate_nonneg_aux input config hac hcc hcm hb hak hrk hck htm⟩

theorem resistance_effective_rate_nonneg_witness :
    0 ≤ resistance ⟨1, 10, 2, 3, -1, 1, 4⟩ cfgA ∧
      resistance ⟨1, 10, 2, 3, -1, 1, 4⟩ cfgA ≤ 1 ∧
      0 ≤ effective_rate ⟨1, 10, 2, 3, -1, 1, 4⟩ cfgA :=
  resistance_effective_rate_nonneg ⟨1, 10, 2, 3, -1, 1, 4⟩ cfgA (by norm_num)
    (by norm_num) (by norm_num) (by norm_num [cfgA]) (by norm_num [cfgA])
    (by norm_num [cfgA]) (by norm_num [cfgA])
    (by intro i; fin_cases i <;> norm_num [cfgA])

/-- Claim C9 counterexample: with a negative `relation_resistance_k` (which the
claim's quantification over every DecayConfig allows) and one connection, the
resistance is negative, outside [0,1]. -/
theorem resistance_negative_counterexample :
    resistance ⟨1, 10, 0, 1, -1, 0, 0⟩ ⟨0.002, 0.1, 0.3, -1, 0.1, ![1, 0.3, 0.5, 0.7]⟩ < 0 := by
  norm_num [resistance, min_def]

/-- For 0 ≤ hours_passed ≤ 168 the recency boost never fires and `calculate`
reduces to the plain decayed-vs-floor maximum. -/
theorem calculate_eq_of_no_boost (input : DecayInput) (config : DecayConfig)
    (h0 : 0 ≤ input.hours_passed) (h168 : input.hours_passed ≤ 168) :
    calculate input config =
      max (input.importance *
            Real.exp (-(effective_rate input config * input.hours_passed)))
          (input.importance * config.min_retention) := by
  unfold calculate
  rw [if_neg (not_lt.mpr h0), fast_exp_neg_eq]
  have hcond : ¬(0 ≤ input.last_access_hours ∧ 168 < input.hours_passed ∧
      input.last_access_hours < 24) := by
    rintro ⟨-, hgt, -⟩
    linarith
  simp only [if_neg hcond]

/-- Claim C7: monotonicity in age outside the recency-paradox window — with
non-negative data and configuration, for 0 ≤ h1 ≤ h2 ≤ 168 the decayed score
at age h2 is at most the decayed score at age h1. -/
theorem calculate_monotone_hours (input : DecayInput) (config : DecayConfig)
    (h1 h2 : ℝ) (himp : 0 ≤ input.importance)
    (hac : 0 ≤ input.access_count) (hcc : 0 ≤ input.connection_count)
    (hcm : 0 ≤ input.channel_mentions) (hb : 0 ≤ config.base_decay_rate)
    (hmr : 0 ≤ config.min_retention) (hak : 0 ≤ config.access_stability_k)
    (hrk : 0 ≤ config.relation_resistance_k) (hck : 0 ≤ config.channel_diversity_k)
    (htm : ∀ i, 0 ≤ config.type_multipliers i)
    (h01 : 0 ≤ h1) (h12 : h1 ≤ h2) (h168 : h2 ≤ 168) :
    calculate {input with hours_passed := h2} config ≤
      calculate {input with hours_passed := h1} config := by
  have h02 : 0 ≤ h2 := le_trans h01 h12
  have hr2 : effective_rate {input with hours_passed := h2} config =
      effective_rate input config := rfl
  have hr1 : effective_rate {input with hours_passed := h1} config =
      effective_rate input config := rfl
  rw [calculate_eq_of_no_boost _ _ h02 h168,
    calculate_eq_of_no_boost _ _ h01 (le_trans h12 h168)]
  have hrate : 0 ≤ effective_rate input config :=
    effective_rate_nonneg_aux input config hac hcc hcm hb hak hrk hck htm
  apply max_le_max _ le_rfl
  show ({input with hours_passed := h2} : DecayInput).importance *
      Real.exp (-(effective_rate {input with hours_passed := h2} config * h2)) ≤
    ({input with hours_passed := h1} : DecayInput).importance *
      Real.exp (-(effective_rate {input with hours_passed := h1} config * h1))
  rw [hr1, hr2]
  apply mul_le_mul_of_nonneg_left _ himp
  apply Real.exp_le_exp.mpr
  have : effective_rate input config * h1 ≤ effective_rate input config * h2 :=
    mul_le_mul_of_nonneg_left h12 hrate
  linarith

theorem calculate_monotone_hours_witness :
    calculate {(⟨1, 7, 2, 3, -1, 0, 1⟩ : DecayInput) with hours_passed := (20 : ℝ)} cfgA ≤
      calculate {(⟨1, 7, 2, 3, -1, 0, 1⟩ : DecayInput) with hours_passed := (5 : ℝ)} cfgA :=
  calculate_monotone_hours ⟨1, 7, 2, 3, -1, 0, 1⟩ cfgA 5 20 (by norm_num)
    (by norm_num) (by norm_num) (by norm_num) (by norm_num [cfgA])
    (by norm_num [cfgA]) (by norm_num [cfgA]) (by norm_num [cfgA]) (by norm_num [cfgA])
    (by intro i; fin_cases i <;> norm_num [cfgA])
    (by norm_num) (by norm_num) (by norm_num)

/-- Claim C8: for hours_passed ≥ 0, the pre-floor decayed value carries the
factor 1.3 exactly when last_access_hours ≥ 0, hours_passed > 168 (strict)
and last_access_hours < 24 (strict); otherwise it is
importance * exp(-effective_rate * hours_passed) with no boost. -/
theorem calculate_recency_boost_boundary (input : DecayInput) (config : DecayConfig)
    (h : 0 ≤ input.hours_passed) :
    calculate input config =
      max ((if 0 ≤ input.last_access_hours ∧ 168 < input.hours_passed ∧
              input.last_access_hours < 24 then (1.3 : ℝ) else 1) *
            (input.importance *
              Real.exp (-(effective_rate input config * input.hours_passed))))
          (input.importance * config.min_retention) := by
  unfold calculate
  rw [if_neg (not_lt.mpr h), fast_exp_neg_eq]
  split
  · ring_nf
  · rw [one_mul]

theorem calculate_recency_boost_boundary_witness :
    calculate ⟨1, 200, 0, 0, 3, 0, 0⟩ cfgA =
      max ((if 0 ≤ (⟨1, 200, 0, 0, 3, 0, 0⟩ : DecayInput).last_access_hours ∧
              168 < (⟨1, 200, 0, 0, 3, 0, 0⟩ : DecayInput).hours_passed ∧
              (⟨1, 200, 0, 0, 3, 0, 0⟩ : DecayInput).last_access_hours < 24
            then (1.3 : ℝ) else 1) *
            ((⟨1, 200, 0, 0, 3, 0, 0⟩ : DecayInput).importance *
              Real.exp (-(effective_rate ⟨1, 200, 0, 0, 3, 0, 0⟩ cfgA *
                (⟨1, 200, 0, 0, 3, 0, 0⟩ : DecayInput).hours_passed))))
          ((⟨1, 200, 0, 0, 3, 0, 0⟩ : DecayInput).importance * cfgA.min_retention) :=
  calculate_recency_boost_boundary ⟨1, 200, 0, 0, 3, 0, 0⟩ cfgA (by norm_num)

/-- Helper: the three degenerate cases of `cosine_similarity` all yield 0. -/
theorem cosSim_zero_of_degenerate (a b : List ℝ)
    (h : a.length ≠ b.length ∨ a = [] ∨
      Real.sqrt (sumSq a) * Real.sqrt (sumSq b) < 1e-10) :
    cosine_similarity a b = 0 := by
  unfold cosine_similarity
  rcases h with h | h | h
  · rw [if_pos (Or.inl h)]
  · rw [if_pos (Or.inr h)]
  · split
    · rfl
    · simp only [if_pos h]

/-- Claim C3 (amended): `cosine_similarity` returns 0 when the lengths differ,
when the first vector is empty, or when the product of the two Euclidean
norms is below 1e-10 (in particular for any exactly-zero vector); the guard
is on the product of the norms, not on each norm separately. -/
theorem cosine_similarity_degenerate_zero (a b : List ℝ)
    (h : a.length ≠ b.length ∨ a = [] ∨
      Real.sqrt (sumSq a) * Real.sqrt (sumSq b) < 1e-10) :
    cosine_similarity a b = 0 :=
  cosSim_zero_of_degenerate a b h

theorem cosine_similarity_degenerate_zero_witness :
    cosine_similarity [(0 : ℝ)] [(1 : ℝ)] = 0 :=
  cosine_similarity_degenerate_zero [(0 : ℝ)] [(1 : ℝ)] (by
    right; right
    norm_num [sumSq, dotL, Real.sqrt_one])

/-- Row lists have length `dim`. -/
theorem rowList_length (corpus : ℕ → ℝ) (dim v : ℕ) :
    (rowList corpus dim v).length = dim := by
  simp [rowList]

/-- Claim C2 (amended): batch cosine similarity agrees pointwise with the
pairwise function on every row where the two zero-norm guards coincide —
the pairwise path guards the product of the norms against 1e-10 while the
batch path guards each norm separately, so equality holds whenever
(‖query‖·‖row v‖ < 1e-10 ↔ ‖query‖ < 1e-10 ∨ ‖row v‖ < 1e-10), and
unconditionally when the query length differs from the corpus dimension. -/
theorem cosine_similarity_batch_pointwise_parity (query : List ℝ) (corpus : ℕ → ℝ)
    (n_vectors dim v : ℕ) (hv : v < n_vectors)
    (hguard : query.length = dim →
      (Real.sqrt (sumSq query) * rowNorm corpus dim v < 1e-10 ↔
        (Real.sqrt (sumSq query) < 1e-10 ∨ rowNorm corpus dim v < 1e-10))) :
    (cosine_similarity_batch query corpus n_vectors dim).getD v 0 =
      cosine_similarity query (rowList corpus dim v) := by
  by_cases hlen : query.length = dim
  · unfold cosine_similarity_batch
    rw [if_neg (by simp [hlen])]
    by_cases hq : Real.sqrt (sumSq query) < 1e-10
    · rw [if_pos hq]
      have hL : (List.replicate n_vectors (0 : ℝ)).getD v 0 = 0 := by simp
      rw [hL]
      by_cases hemp : query = []
      · exact (cosSim_zero_of_degenerate _ _ (Or.inr (Or.inl hemp))).symm
      · refine (cosSim_zero_of_degenerate _ _ (Or.inr (Or.inr ?_))).symm
        simpa [rowNorm] using (hguard hlen).mpr (Or.inl hq)
    · rw [if_neg hq]
      have hqne : query ≠ [] := by
        intro hq0
        apply hq
        rw [hq0]
        norm_num [sumSq, dotL]
      rw [List.getD_eq_getElem _ _ (by simpa using hv)]
      rw [List.getElem_map, List.getElem_range]
      by_cases hvn : rowNorm corpus dim v < 1e-10
      · rw [if_pos hvn]
        refine (cosSim_zero_of_degenerate _ _ (Or.inr (Or.inr ?_))).symm
        simpa [rowNorm] using (hguard hlen).mpr (Or.inr hvn)
      · rw [if_neg hvn]
        unfold cosine_similarity
        rw [if_neg (by
          rintro (h | h)
          · exact h (by rw [rowList_length]; exact hlen)
          · exact hqne h)]
        have hd : ¬ (Real.sqrt (sumSq query) *
            Real.sqrt (sumSq (rowList corpus dim v)) < 1e-10) := by
          intro hlt
          rcases (hguard hlen).mp hlt with h | h
          exacts [hq h, hvn h]
        simp only [if_neg hd]
        rfl
  · unfold cosine_similarity_batch
    rw [if_pos hlen]
    have hL : (List.replicate n_vectors (0 : ℝ)).getD v 0 = 0 := by simp
    rw [hL]
    refine (cosSim_zero_of_degenerate _ _ (Or.inl ?_)).symm
    rw [rowList_length]
    exact hlen

theorem cosine_similarity_batch_pointwise_parity_witness :
    (cosine_similarity_batch [(3 : ℝ), 4] (fun k => if k = 0 then (4 : ℝ) else 3)
        1 2).getD 0 0 =
      cosine_similarity [(3 : ℝ), 4]
        (rowList (fun k => if k = 0 then (4 : ℝ) else 3) 2 0) := by
  have h5 : Real.sqrt (25 : ℝ) = 5 := by
    rw [show (25 : ℝ) = 5 * 5 by norm_num, Real.sqrt_mul_self (by norm_num)]
  have hrow : rowList (fun k => if k = 0 then (4 : ℝ) else 3) 2 0 = [4, 3] := by
    simp [rowList, List.range_succ]
  refine cosine_similarity_batch_pointwise_parity [(3 : ℝ), 4]
    (fun k => if k = 0 then (4 : ℝ) else 3) 1 2 0 (by norm_num) ?_
  intro _
  have hq : Real.sqrt (sumSq [(3 : ℝ), 4]) = 5 := by
    rw [show sumSq [(3 : ℝ), 4] = 25 by norm_num [sumSq, dotL], h5]
  have hr : rowNorm (fun k => if k = 0 then (4 : ℝ) else 3) 2 0 = 5 := by
    unfold rowNorm
    rw [hrow, show sumSq [(4 : ℝ), 3] = 25 by norm_num [sumSq, dotL], h5]
  rw [hq, hr]
  norm_num

/-- Claim C2 counterexample: for the single-row corpus [1e-6] and query [1e-6]
the batch path returns 1 (each norm 1e-6 passes its individual guard) while
the pairwise path returns 0 (the product of norms 1e-12 fails its guard). -/
theorem cosine_similarity_batch_guard_counterexample :
    (cosine_similarity_batch [(1 : ℝ) / 1000000] (fun _ => (1 : ℝ) / 1000000)
        1 1).getD 0 0 ≠
      cosine_similarity [(1 : ℝ) / 1000000]
        (rowList (fun _ => (1 : ℝ) / 1000000) 1 0) := by
  have hrow : rowList (fun _ => (1 : ℝ) / 1000000) 1 0 = [(1 : ℝ) / 1000000] := by
    simp [rowList]
  have hss : sumSq [(1 : ℝ) / 1000000] = (1 / 1000000) * (1 / 1000000) := by
    norm_num [sumSq, dotL]
  have hs : Real.sqrt (sumSq [(1 : ℝ) / 1000000]) = 1 / 1000000 := by
    rw [hss, Real.sqrt_mul_self (by norm_num)]
  have hLHS : (cosine_similarity_batch [(1 : ℝ) / 1000000]
      (fun _ => (1 : ℝ) / 1000000) 1 1).getD 0 0 = 1 := by
    unfold cosine_similarity_batch
    rw [if_neg (by norm_num)]
    rw [if_neg (by rw [hs]; norm_num)]
    have h1 : rowNorm (fun _ => (1 : ℝ) / 1000000) 1 0 = 1 / 1000000 := by
      rw [rowNorm, hrow, hs]
    simp only [List.range_succ, List.range_zero, List.nil_append,
      List.map_cons, List.map_nil, h1]
    rw [List.getD_cons_zero]
    rw [if_neg (by norm_num), hrow, hs]
    norm_num [dotL]
  have hRHS : cosine_similarity [(1 : ℝ) / 1000000]
      (rowList (fun _ => (1 : ℝ) / 1000000) 1 0) = 0 := by
    apply cosSim_zero_of_degenerate
    right; right
    rw [hrow, hs]
    norm_num
  rw [hLHS, hRHS]
  norm_num

/-- Membership characterization of the duplicate list. -/
theorem find_duplicates_mem_aux (corpus : ℕ → ℝ) (n dim : ℕ) (thr : ℝ)
    (i j : ℕ) (s : ℝ) :
    (i, j, s) ∈ find_duplicates_by_embedding corpus n dim thr ↔
      (i < j ∧ j < n ∧ 1e-10 ≤ rowNorm corpus dim i ∧ 1e-10 ≤ rowNorm corpus dim j ∧
        s = pairSim corpus dim i j ∧ thr ≤ s) := by
  unfold find_duplicates_by_embedding
  rw [List.mem_flatMap]
  constructor
  · rintro ⟨a, ha, hmem⟩
    rw [List.mem_range] at ha
    by_cases hni : rowNorm corpus dim a < 1e-10
    · rw [if_pos hni] at hmem
      cases hmem
    · rw [if_neg hni] at hmem
      rw [List.mem_filterMap] at hmem
      obtain ⟨b, hb, heq⟩ := hmem
      rw [List.mem_range'_1] at hb
      by_cases hnj : rowNorm corpus dim b < 1e-10
      · rw [if_pos hnj] at heq
        cases heq
      · rw [if_neg hnj] at heq
        by_cases ht : thr ≤ pairSim corpus dim a b
        · rw [if_pos ht] at heq
          injection heq with heq
          obtain ⟨rfl, rfl, rfl⟩ : a = i ∧ b = j ∧ pairSim corpus dim a b = s := by
            simpa [Prod.ext_iff] using heq
          exact ⟨by omega, by omega, not_lt.mp hni, not_lt.mp hnj, rfl, ht⟩
        · rw [if_neg ht] at heq
          cases heq
  · rintro ⟨hij, hjn, hni, hnj, rfl, hts⟩
    refine ⟨i, by rw [List.mem_range]; omega, ?_⟩
    rw [if_neg (not_lt.mpr hni)]
    rw [List.mem_filterMap]
    refine ⟨j, by rw [List.mem_range'_1]; omega, ?_⟩
    rw [if_neg (not_lt.mpr hnj), if_pos hts]

/-- Pairwise property of a flatMap from pairwise properties of the blocks
and of the outer list. -/
theorem pairwise_flatMap_aux {α β : Type} {R : β → β → Prop} :
    ∀ {l : List α} {f : α → List β},
      (∀ a ∈ l, (f a).Pairwise R) →
      l.Pairwise (fun a b => ∀ x ∈ f a, ∀ y ∈ f b, R x y) →
      (l.flatMap f).Pairwise R := by
  intro l f
  induction l with
  | nil => intro _ _; simp
  | cons a t ih =>
    intro hf hl
    rw [List.flatMap_cons, List.pairwise_append]
    rw [List.pairwise_cons] at hl
    refine ⟨hf a (by simp), ih (fun b hb => hf b (by simp [hb])) hl.2, ?_⟩
    intro x hx y hy
    rw [List.mem_flatMap] at hy
    obtain ⟨b, hb, hyb⟩ := hy
    exact hl.1 b hb x hx y hyb

/-- Every element of the inner block for outer index `a` has first component
`a` and second component greater than `a`. -/
theorem mem_inner_block_aux {corpus : ℕ → ℝ} {n dim : ℕ} {thr : ℝ} {a : ℕ}
    {x : ℕ × ℕ × ℝ}
    (hx : x ∈ (if rowNorm corpus dim a < 1e-10 then ([] : List (ℕ × ℕ × ℝ))
      else (List.range' (a + 1) (n - (a + 1))).filterMap fun j =>
        if rowNorm corpus dim j < 1e-10 then none
        else if thr ≤ pairSim corpus dim a j then some (a, j, pairSim corpus dim a j)
        else none)) :
    x.1 = a ∧ a < x.2.1 := by
  split at hx
  · cases hx
  · rw [List.mem_filterMap] at hx
    obtain ⟨j, hj, hjeq⟩ := hx
    rw [List.mem_range'_1] at hj
    split at hjeq
    · cases hjeq
    · split at hjeq
      · injection hjeq with hjeq
        subst hjeq
        refine ⟨rfl, ?_⟩
        show a < j
        omega
      · cases hjeq

/-- The duplicate list is strictly sorted in the lexicographic order on
(first index, second index). -/
theorem find_duplicates_pairwise_aux (corpus : ℕ → ℝ) (n dim : ℕ) (thr : ℝ) :
    (find_duplicates_by_embedding corpus n dim thr).Pairwise
      (fun t u => t.1 < u.1 ∨ (t.1 = u.1 ∧ t.2.1 < u.2.1)) := by
  unfold find_duplicates_by_embedding
  apply pairwise_flatMap_aux
  · intro a _
    split
    · exact List.Pairwise.nil
    · rw [List.pairwise_filterMap]
      refine List.Pairwise.imp ?_ (List.pairwise_lt_range' (a + 1) (n - (a + 1)))
      intro b c hbc x hx y hy
      rw [Option.mem_def] at hx hy
      have hxv : x = (a, b, pairSim corpus dim a b) := by
        split at hx
        · cases hx
        · split at hx
          · injection hx with h; exact h.symm
          · cases hx
      have hyv : y = (a, c, pairSim corpus dim a c) := by
        split at hy
        · cases hy
        · split at hy
          · injection hy with h; exact h.symm
          · cases hy
      subst hxv hyv
      exact Or.inr ⟨rfl, hbc⟩
  · refine List.Pairwise.imp ?_ (List.pairwise_lt_range n)
    intro a b hab x hx y hy
    have h1 := (mem_inner_block_aux hx).1
    have h2 := (mem_inner_block_aux hy).1
    exact Or.inl (by rw [h1, h2]; exact hab)

/-- In a list without duplicates every member has count exactly one
(for any lawful boolean equality). -/
theorem count_eq_one_aux {α : Type} [BEq α] [LawfulBEq α] {l : List α} {a : α}
    (hnd : l.Nodup) (ha : a ∈ l) : l.count a = 1 := by
  have hle : l.count a ≤ 1 := by
    clear ha
    induction l with
    | nil => simp
    | cons b t ih =>
      rw [List.count_cons]
      rcases List.nodup_cons.mp hnd with ⟨hb, ht⟩
      by_cases hab : a = b
      · subst hab
        have : List.count a t = 0 := by
          rw [List.count_eq_zero]
          exact hb
        simp [this]
      · rw [if_neg (by simp only [beq_iff_eq]; exact fun h => hab h.symm), Nat.add_zero]
        exact ih ht
  exact le_antisymm hle (List.count_pos_iff.mpr ha)

/-- Claim C4: complete characterization of `find_duplicates_by_embedding`:
(i, j, s) is emitted iff i < j < n, both row norms are at least 1e-10, and
s is the cosine similarity of rows i and j with s ≥ threshold (inclusive);
the output is strictly ascending in (i, j) — hence no sorting by similarity —
and each qualifying pair appears exactly once. -/
theorem find_duplicates_characterization (corpus : ℕ → ℝ) (n dim : ℕ) (thr : ℝ) :
    (∀ i j s, (i, j, s) ∈ find_duplicates_by_embedding corpus n dim thr ↔
        (i < j ∧ j < n ∧ 1e-10 ≤ rowNorm corpus dim i ∧
          1e-10 ≤ rowNorm corpus dim j ∧ s = pairSim corpus dim i j ∧ thr ≤ s)) ∧
      (find_duplicates_by_embedding corpus n dim thr).Pairwise
        (fun t u => t.1 < u.1 ∨ (t.1 = u.1 ∧ t.2.1 < u.2.1)) ∧
      (∀ i j, i < j → j < n → 1e-10 ≤ rowNorm corpus dim i →
        1e-10 ≤ rowNorm corpus dim j → thr ≤ pairSim corpus dim i j →
        (find_duplicates_by_embedding corpus n dim thr).count
          (i, j, pairSim corpus dim i j) = 1) := by
  refine ⟨find_duplicates_mem_aux corpus n dim thr,
    find_duplicates_pairwise_aux corpus n dim thr, ?_⟩
  intro i j hij hjn hni hnj hts
  have hnd : (find_duplicates_by_embedding corpus n dim thr).Nodup := by
    apply List.Pairwise.imp ?_ (find_duplicates_pairwise_aux corpus n dim thr)
    intro t u h
    rintro rfl
    rcases h with h | ⟨-, h⟩ <;> exact lt_irrefl _ h
  apply count_eq_one_aux hnd
  exact (find_duplicates_mem_aux corpus n dim thr i j _).mpr
    ⟨hij, hjn, hni, hnj, rfl, hts⟩

theorem find_duplicates_characterization_witness :
    (find_duplicates_by_embedding (fun _ => (1 : ℝ)) 2 1 (1 / 2)).count
      (0, 1, pairSim (fun _ => (1 : ℝ)) 1 0 1) = 1 := by
  have hr0 : rowNorm (fun _ => (1 : ℝ)) 1 0 = 1 := by
    norm_num [rowNorm, rowList, sumSq, dotL, List.range_succ, Real.sqrt_one]
  have hr1 : rowNorm (fun _ => (1 : ℝ)) 1 1 = 1 := by
    norm_num [rowNorm, rowList, sumSq, dotL, List.range_succ, Real.sqrt_one]
  have hps : pairSim (fun _ => (1 : ℝ)) 1 0 1 = 1 := by
    rw [pairSim, hr0, hr1]
    norm_num [dotL, rowList, List.range_succ]
  exact (find_duplicates_characterization (fun _ => (1 : ℝ)) 2 1 (1 / 2)).2.2 0 1
    (by norm_num) (by norm_num) (by rw [hr0]; norm_num) (by rw [hr1]; norm_num)
    (by rw [hps]; norm_num)

/-- Claim C3 counterexample: a vector of norm 1e-11 < 1e-10 paired with a
vector of norm 1e11 gives similarity 1, not 0 — the code only guards the
product of the norms. -/
theorem cosine_similarity_small_norm_counterexample :
    Real.sqrt (sumSq [(1 : ℝ) / 100000000000]) < 1e-10 ∧
      cosine_similarity [(1 : ℝ) / 100000000000] [(100000000000 : ℝ)] = 1 := by
  have hs1 : Real.sqrt (sumSq [(1 : ℝ) / 100000000000]) = 1 / 100000000000 := by
    have : sumSq [(1 : ℝ) / 100000000000] =
        (1 / 100000000000) * (1 / 100000000000) := by
      norm_num [sumSq, dotL]
    rw [this, Real.sqrt_mul_self (by norm_num)]
  have hs2 : Real.sqrt (sumSq [(100000000000 : ℝ)]) = 100000000000 := by
    have : sumSq [(100000000000 : ℝ)] =
        (100000000000 : ℝ) * 100000000000 := by
      norm_num [sumSq, dotL]
    rw [this, Real.sqrt_mul_self (by norm_num)]
  constructor
  · rw [hs1]; norm_num
  · unfold cosine_similarity
    rw [if_neg (by norm_num)]
    simp only [hs1, hs2]
    rw [if_neg (by norm_num)]
    norm_num [dotL]


/-- Unfolding: empty queue. -/
theorem bfsLoop_nil (adj : List (ℕ × List ℕ)) (md : ℤ) (visited : Finset ℕ) :
    bfsLoop adj md visited [] = visited := by
  rw [bfsLoop]

/-- Unfolding: entry at or beyond the depth bound is skipped. -/
theorem bfsLoop_cons_skip (adj : List (ℕ × List ℕ)) (md : ℤ) (visited : Finset ℕ)
    (c : ℕ) (d : ℤ) (rest : List (ℕ × ℤ)) (h : md ≤ d) :
    bfsLoop adj md visited ((c, d) :: rest) = bfsLoop adj md visited rest := by
  rw [bfsLoop, if_pos h]

/-- Unfolding: node without adjacency entry is skipped. -/
theorem bfsLoop_cons_none (adj : List (ℕ × List ℕ)) (md : ℤ) (visited : Finset ℕ)
    (c : ℕ) (d : ℤ) (rest : List (ℕ × ℤ)) (h : ¬ md ≤ d)
    (hL : adj.lookup c = none) :
    bfsLoop adj md visited ((c, d) :: rest) = bfsLoop adj md visited rest := by
  rw [bfsLoop, if_neg h]
  split
  · rfl
  · rename_i nbrs heq
    rw [hL] at heq
    cases heq

/-- Unfolding: node with an adjacency entry pushes its unvisited neighbors. -/
theorem bfsLoop_cons_some (adj : List (ℕ × List ℕ)) (md : ℤ) (visited : Finset ℕ)
    (c : ℕ) (d : ℤ) (rest : List (ℕ × ℤ)) (nbrs : List ℕ) (h : ¬ md ≤ d)
    (hL : adj.lookup c = some nbrs) :
    bfsLoop adj md visited ((c, d) :: rest) =
      bfsLoop adj md (pushNbrs d nbrs (visited, rest)).1
        (pushNbrs d nbrs (visited, rest)).2 := by
  rw [bfsLoop, if_neg h]
  split
  · rename_i heq
    rw [hL] at heq
    cases heq
  · rename_i nbrs' heq
    rw [hL] at heq
    injection heq with heq
    subst heq
    rfl

/-- The neighbor-push fold only grows the visited set. -/
theorem pushNbrs_fst_subset (d : ℤ) :
    ∀ (l : List ℕ) (v : Finset ℕ) (p : List (ℕ × ℤ)),
      v ⊆ (pushNbrs d l (v, p)).1 := by
  intro l
  induction l with
  | nil =>
    intro v p
    exact subset_rfl
  | cons x xs ih =>
    intro v p
    unfold pushNbrs at ih ⊢
    rw [List.foldl_cons]
    by_cases hx : x ∈ v
    · rw [show pushStep d (v, p) x = (v, p) from by unfold pushStep; rw [if_pos hx]]
      exact ih v p
    · rw [show pushStep d (v, p) x = (insert x v, p ++ [(x, d + 1)]) from by
        unfold pushStep; rw [if_neg hx]]
      exact subset_trans (Finset.subset_insert x v) (ih (insert x v) _)

/-- The BFS loop only grows the visited set. -/
theorem bfsLoop_subset (adj : List (ℕ × List ℕ)) (md : ℤ)
    (visited : Finset ℕ) (queue : List (ℕ × ℤ)) :
    visited ⊆ bfsLoop adj md visited queue := by
  induction visited, queue using bfsLoop.induct adj md with
  | case1 v =>
    rw [bfsLoop_nil]
  | case2 v c d rest h ih =>
    rw [bfsLoop_cons_skip adj md v c d rest h]
    exact ih
  | case3 v c d rest h hL ih =>
    rw [bfsLoop_cons_none adj md v c d rest h hL]
    exact ih
  | case4 v c d rest h nbrs hL ih =>
    rw [bfsLoop_cons_some adj md v c d rest nbrs h hL]
    exact subset_trans (pushNbrs_fst_subset d nbrs v rest) ih

/-- If every queued entry is at or beyond the depth bound, the loop returns
the visited set unchanged. -/
theorem bfsLoop_all_skip (adj : List (ℕ × List ℕ)) (md : ℤ)
    (visited : Finset ℕ) (queue : List (ℕ × ℤ))
    (h : ∀ p ∈ queue, md ≤ p.2) :
    bfsLoop adj md visited queue = visited := by
  induction queue with
  | nil => exact bfsLoop_nil adj md visited
  | cons hd rest ih =>
    obtain ⟨c, d⟩ := hd
    rw [bfsLoop_cons_skip adj md visited c d rest (h (c, d) (List.mem_cons_self _ _))]
    exact ih fun p hp => h p (List.mem_cons_of_mem _ hp)

/-- The initialization fold collects exactly the start nodes into visited. -/
theorem bfsInit_fold_fst (start : List ℕ) :
    ∀ (v : Finset ℕ) (p : List (ℕ × ℤ)),
      (start.foldl (fun st node =>
        if node ∈ st.1 then st else (insert node st.1, st.2 ++ [(node, 0)]))
        (v, p)).1 = v ∪ start.toFinset := by
  induction start with
  | nil =>
    intro v p
    simp
  | cons x xs ih =>
    intro v p
    rw [List.foldl_cons]
    by_cases hx : x ∈ v
    · rw [show (if x ∈ (v, p).1 then (v, p)
          else (insert x (v, p).1, (v, p).2 ++ [(x, (0 : ℤ))])) = (v, p) from by
        rw [if_pos hx]]
      rw [ih v p]
      ext y
      simp only [Finset.mem_union, List.toFinset_cons, Finset.mem_insert,
        List.mem_toFinset]
      constructor
      · rintro (hy | hy)
        · exact Or.inl hy
        · exact Or.inr (Or.inr (List.mem_toFinset.mp (by simpa using hy)))
      · rintro (hy | hy | hy)
        · exact Or.inl hy
        · exact Or.inl (hy ▸ hx)
        · exact Or.inr (by simpa using hy)
    · rw [show (if x ∈ (v, p).1 then (v, p)
          else (insert x (v, p).1, (v, p).2 ++ [(x, (0 : ℤ))])) =
          (insert x v, p ++ [(x, (0 : ℤ))]) from by rw [if_neg hx]]
      rw [ih (insert x v) _]
      ext y
      simp only [Finset.mem_union, Finset.mem_insert, List.toFinset_cons,
        List.mem_toFinset]
      tauto

/-- Every entry queued by the initialization fold has depth 0. -/
theorem bfsInit_fold_snd (start : List ℕ) :
    ∀ (v : Finset ℕ) (p : List (ℕ × ℤ)), (∀ q ∈ p, q.2 = (0 : ℤ)) →
      ∀ q ∈ (start.foldl (fun st node =>
        if node ∈ st.1 then st else (insert node st.1, st.2 ++ [(node, 0)]))
        (v, p)).2, q.2 = (0 : ℤ) := by
  induction start with
  | nil =>
    intro v p hp
    exact hp
  | cons x xs ih =>
    intro v p hp
    rw [List.foldl_cons]
    by_cases hx : x ∈ v
    · rw [show (if x ∈ (v, p).1 then (v, p)
          else (insert x (v, p).1, (v, p).2 ++ [(x, (0 : ℤ))])) = (v, p) from by
        rw [if_pos hx]]
      exact ih v p hp
    · rw [show (if x ∈ (v, p).1 then (v, p)
          else (insert x (v, p).1, (v, p).2 ++ [(x, (0 : ℤ))])) =
          (insert x v, p ++ [(x, (0 : ℤ))]) from by rw [if_neg hx]]
      refine ih (insert x v) _ ?_
      intro q hq
      rcases List.mem_append.mp hq with hq | hq
      · exact hp q hq
      · simp only [List.mem_singleton] at hq
        rw [hq]

/-- Claim C10: the set returned by `bfs_neighbors` contains every start node,
and with max_depth ≤ 0 it is exactly the set of distinct start nodes,
independent of the adjacency map. -/
theorem bfs_neighbors_start_nodes (adj : List (ℕ × List ℕ)) (start : List ℕ)
    (md : ℤ) :
    (∀ s ∈ start, s ∈ bfs_neighbors adj start md) ∧
      (md ≤ 0 → bfs_neighbors adj start md = start.toFinset) := by
  have hfst : (bfsInit start).1 = start.toFinset := by
    have h := bfsInit_fold_fst start ∅ []
    simpa [bfsInit] using h
  constructor
  · intro s hs
    have hmem : s ∈ (bfsInit start).1 := by
      rw [hfst]
      exact List.mem_toFinset.mpr hs
    exact bfsLoop_subset adj md (bfsInit start).1 (bfsInit start).2 hmem
  · intro hmd
    unfold bfs_neighbors
    rw [bfsLoop_all_skip, hfst]
    intro q hq
    have hq0 : q.2 = (0 : ℤ) :=
      bfsInit_fold_snd start ∅ [] (by simp) q (by simpa [bfsInit] using hq)
    rw [hq0]
    exact hmd

theorem bfs_neighbors_start_nodes_witness :
    0 ∈ bfs_neighbors [(0, [1, 2])] [0, 0, 3] 0 ∧
      bfs_neighbors [(0, [1, 2])] [0, 0, 3] 0 = ([0, 0, 3] : List ℕ).toFinset :=
  ⟨(bfs_neighbors_start_nodes [(0, [1, 2])] [0, 0, 3] 0).1 0 (by simp),
   (bfs_neighbors_start_nodes [(0, [1, 2])] [0, 0, 3] 0).2 le_rfl⟩

/-- `fast_log1p` at 0 (integer access count 0) is 0. -/
theorem fast_log1p_zero : fast_log1p 0 = 0 := by
  rw [fast_log1p, if_pos (by norm_num)]
  norm_num

/-- The clamped type index of memory type 0. -/
theorem clampType_zero : clampType 0 = 0 := rfl

/-- exp is bounded below by 0.1 on arguments ≥ -0.9. -/
theorem exp_lb_aux (x : ℝ) (h : -(0.9 : ℝ) ≤ x) : (0.1 : ℝ) ≤ Real.exp x := by
  have h2 := Real.add_one_le_exp x
  linarith

/-- The effective rate of the fallback-assembled record (channel_mentions
dropped to 0) in the C1 failing batch. -/
theorem er_c1_zero : effective_rate ⟨1, 100, 0, 0, -1, 0, 0⟩ cfgA = 1 / 500 := by
  unfold effective_rate stability resistance type_multiplier channel_boost
  norm_num [cfgA, fast_log1p_zero, clampType_zero, Matrix.cons_val_zero]

/-- The effective rate of the correctly assembled record (channel_mentions
= 5) in the C1 failing batch. -/
theorem er_c1_five : effective_rate ⟨1, 100, 0, 0, -1, 0, 5⟩ cfgA = 1 / 750 := by
  unfold effective_rate stability resistance type_multiplier channel_boost
  norm_num [cfgA, fast_log1p_zero, clampType_zero, Matrix.cons_val_zero]

/-- Scalar `calculate` on the fallback-assembled record. -/
theorem calc_c1_zero : calculate ⟨1, 100, 0, 0, -1, 0, 0⟩ cfgA =
    Real.exp (-(1 / 5)) := by
  rw [calculate_eq_of_no_boost _ _ (by norm_num) (by norm_num), er_c1_zero]
  have hb : (0.1 : ℝ) ≤ Real.exp (-(1 / 5)) := exp_lb_aux _ (by norm_num)
  rw [show (1 / 500 : ℝ) * (⟨1, 100, 0, 0, -1, 0, 0⟩ : DecayInput).hours_passed
      = 1 / 5 from by norm_num]
  rw [show ((⟨1, 100, 0, 0, -1, 0, 0⟩ : DecayInput).importance : ℝ) = 1 from rfl]
  rw [show cfgA.min_retention = 0.1 from rfl]
  rw [one_mul, one_mul]
  exact max_eq_left hb

/-- Scalar `calculate` on the correctly assembled record. -/
theorem calc_c1_five : calculate ⟨1, 100, 0, 0, -1, 0, 5⟩ cfgA =
    Real.exp (-(2 / 15)) := by
  rw [calculate_eq_of_no_boost _ _ (by norm_num) (by norm_num), er_c1_five]
  have hb : (0.1 : ℝ) ≤ Real.exp (-(2 / 15)) := exp_lb_aux _ (by norm_num)
  rw [show (1 / 750 : ℝ) * (⟨1, 100, 0, 0, -1, 0, 5⟩ : DecayInput).hours_passed
      = 2 / 15 from by norm_num]
  rw [show ((⟨1, 100, 0, 0, -1, 0, 5⟩ : DecayInput).importance : ℝ) = 1 from rfl]
  rw [show cfgA.min_retention = 0.1 from rfl]
  rw [one_mul, one_mul]
  exact max_eq_left hb

/-- The first AVX2 lane of the C1 negative-hours batch: the lane has no
hours_passed < 0 early return, so a record aged -10 hours is "decayed"
forward to exp(+1/50) times its importance. -/
theorem avx2_lane_c1 : avx2Lane 1 (-10) 0 0 (-1) 0 0 cfgA = Real.exp (1 / 50) := by
  unfold avx2Lane
  have hb : (0.1 : ℝ) ≤ Real.exp (1 / 50) := exp_lb_aux _ (by norm_num)
  simp only [fast_exp_neg_eq, cfgA, Int.cast_zero, fast_log1p_zero, clampType_zero,
    Matrix.cons_val_zero]
  norm_num
  linarith [hb]

/-- Scalar `calculate` on the negative-hours record returns its importance. -/
theorem calc_c1_neg : calculate ⟨1, -10, 0, 0, -1, 0, 0⟩ cfgA = 1 := by
  unfold calculate
  rw [if_pos (by norm_num)]

/-- `calculate_batch` applies scalar `calculate` to every input in order:
the 64-wide chunking is invisible in the output. -/
theorem calculate_batch_eq_map (inputs : List DecayInput) (config : DecayConfig) :
    calculate_batch inputs config = inputs.map fun x => calculate x config := by
  induction inputs, config using calculate_batch.induct with
  | case1 config => rw [calculate_batch]; rfl
  | case2 x rest config ih =>
    rw [calculate_batch, ih, ← List.map_append, List.take_append_drop]

/-- Claim C1 (code bug): `calculate_batch_arrays` is NOT pointwise equal to
scalar `calculate` on the assembled records.  The scalar fallback variant
assembles the DecayInput without channel_mentions (so a record with 5 channel
mentions is scored as if it had 0: exp(-1/5) instead of exp(-2/15)), and the
AVX2 lane variant skips the hours_passed < 0 early return (a record aged -10
hours scores exp(1/50) instead of its unchanged importance 1).  Both
divergences are far beyond 1e-9 relative error. -/
theorem calculate_batch_arrays_diverges_from_scalar :
    (calculate_batch_arrays_fallback 1 (fun _ => 1) (fun _ => 100) (fun _ => 0)
        (fun _ => 0) (fun _ => -1) (fun _ => 0) (fun _ => 5) cfgA).getD 0 0 ≠
      calculate (assembleInput (fun _ => 1) (fun _ => 100) (fun _ => 0)
        (fun _ => 0) (fun _ => -1) (fun _ => 0) (fun _ => 5) 0) cfgA ∧
    (calculate_batch_arrays_avx2 4 (fun _ => 1) (fun _ => -10) (fun _ => 0)
        (fun _ => 0) (fun _ => -1) (fun _ => 0) (fun _ => 0) cfgA).getD 0 0 ≠
      calculate (assembleInput (fun _ => 1) (fun _ => -10) (fun _ => 0)
        (fun _ => 0) (fun _ => -1) (fun _ => 0) (fun _ => 0) 0) cfgA := by
  constructor
  · have hL : (calculate_batch_arrays_fallback 1 (fun _ => 1) (fun _ => 100)
        (fun _ => 0) (fun _ => 0) (fun _ => -1) (fun _ => 0) (fun _ => 5)
        cfgA).getD 0 0 = calculate ⟨1, 100, 0, 0, -1, 0, 0⟩ cfgA := by
      simp only [calculate_batch_arrays_fallback, List.range_succ, List.range_zero,
        List.nil_append, List.map_cons, List.map_nil, List.getD_cons_zero]
    have hR : calculate (assembleInput (fun _ => 1) (fun _ => 100) (fun _ => 0)
        (fun _ => 0) (fun _ => -1) (fun _ => 0) (fun _ => 5) 0) cfgA =
        calculate ⟨1, 100, 0, 0, -1, 0, 5⟩ cfgA := rfl
    rw [hL, hR, calc_c1_zero, calc_c1_five]
    intro h
    have := Real.exp_eq_exp.mp h
    norm_num at this
  · have hL : (calculate_batch_arrays_avx2 4 (fun _ => 1) (fun _ => -10)
        (fun _ => 0) (fun _ => 0) (fun _ => -1) (fun _ => 0) (fun _ => 0)
        cfgA).getD 0 0 = avx2Lane 1 (-10) 0 0 (-1) 0 0 cfgA := by
      unfold calculate_batch_arrays_avx2
      rw [List.getD_eq_getElem _ _ (by simp)]
      rw [List.getElem_map, List.getElem_range]
      rw [if_pos (by norm_num)]
    have hR : calculate (assembleInput (fun _ => 1) (fun _ => -10) (fun _ => 0)
        (fun _ => 0) (fun _ => -1) (fun _ => 0) (fun _ => 0) 0) cfgA =
        calculate ⟨1, -10, 0, 0, -1, 0, 0⟩ cfgA := rfl
    rw [hL, hR, avx2_lane_c1, calc_c1_neg]
    intro h
    have := (Real.exp_eq_one_iff _).mp h
    norm_num at this
